import Mathlib

/-!
Formal model of the pharynx geometry pipeline in `pharaglow/features.py`.

Each Lean definition below is a shallow embedding of the corresponding Python
function, translated statement by statement.  Real-valued (floating point)
quantities are modelled by `ℝ` where square roots occur and by `ℚ` where all
arithmetic is rational, so that the definitions stay exact and, where
possible, executable.  Division by zero follows the Lean convention
`x / 0 = 0`; places where NumPy would instead produce `NaN`/`inf` are pointed
out in the doc comments of the theorems concerned.  External library routines
(scipy's clustering, `skimage.measure.profile_line`, the `curve_fit`
optimizer) are not part of the repository; they enter the model either as
explicit function parameters or as small models of their documented
behaviour, marked as such.
-/

namespace PharaGlow

/-- Embedding of `pharynxFunc(x, *p, deriv=0)` from `features.py`:
`if deriv==1: return p[1] + 2*p[2]*x` and otherwise
`p[0] + p[1]*x + p[2]*x**2`.  The coefficient tuple `p` has exactly three
components; the polynomial is quadratic.  `dv` is the `deriv` keyword
(the Python default is `0`; call sites below always pass it explicitly). -/
def pharynxFunc {K : Type} [CommRing K] (x : K) (p : K × K × K) (dv : ℕ) : K :=
  if dv = 1 then p.2.1 + 2 * p.2.2 * x else p.1 + p.2.1 * x + p.2.2 * x ^ 2

/-- Embedding of `fitSkeleton(ptsX, ptsY)`: the external nonlinear
least-squares optimizer `scipy.optimize.curve_fit` is abstracted as the
parameter `curveFit` (taking the model function, the sample positions
`x = np.arange(nP)`, the data, and the initial guess).  `fitSkeleton` fits
each axis separately, both times with the three-coefficient model
`pharynxFunc` and initial guess `(1,1,1)`. -/
def fitSkeleton
    (curveFit : (ℝ → ℝ × ℝ × ℝ → ℝ) → List ℝ → List ℝ → ℝ × ℝ × ℝ → ℝ × ℝ × ℝ)
    (ptsX ptsY : List ℝ) : (ℝ × ℝ × ℝ) × (ℝ × ℝ × ℝ) :=
  let x : List ℝ := (List.range ptsX.length).map (fun i => (i : ℝ))
  (curveFit (fun t p => pharynxFunc t p 0) x ptsX (1, 1, 1),
   curveFit (fun t p => pharynxFunc t p 0) x ptsY (1, 1, 1))

/-- Model of `np.linspace(a, b, n)`: `n` evenly spaced samples from `a` to
`b` inclusive; for `n ≤ 1` the single sample (if any) is `a`. -/
def linspace {K : Type} [Field K] (a b : K) (n : ℕ) : List K :=
  if n ≤ 1 then (List.range n).map (fun _ => a)
  else (List.range n).map (fun i : ℕ => a + (b - a) * (i : K) / ((n : K) - 1))

/-- Embedding of `centerline(poptX, poptY, xs)`:
`np.c_[pharynxFunc(xs, *poptX), pharynxFunc(xs, *poptY)]`. -/
def centerline {K : Type} [CommRing K] (pX pY : K × K × K) (xs : List K) :
    List (K × K) :=
  xs.map (fun t => (pharynxFunc t pX 0, pharynxFunc t pY 0))

/-- Tangent vector `(dx, dy)` of the fitted centerline at parameter `t`:
the two derivative evaluations `pharynxFunc(t, *popt, deriv=1)` computed at
the start of `normalVecCl`. -/
def tangentAt (pX pY : ℝ × ℝ × ℝ) (t : ℝ) : ℝ × ℝ :=
  (pharynxFunc t pX 1, pharynxFunc t pY 1)

/-- Per-parameter body of `normalVecCl`: the derivative columns `(dx, dy)`
are reversed to `(dy, dx)`, the first component is negated giving
`(-dy, dx)`, and the vector is divided by its Euclidean norm.  The source
performs no check that the norm is nonzero. -/
noncomputable def normalVecClAt (pX pY : ℝ × ℝ × ℝ) (t : ℝ) : ℝ × ℝ :=
  let dx := pharynxFunc t pX 1
  let dy := pharynxFunc t pY 1
  let v : ℝ × ℝ := (-dy, dx)
  let n := Real.sqrt (v.1 ^ 2 + v.2 ^ 2)
  (v.1 / n, v.2 / n)

/-- Embedding of `normalVecCl(poptX, poptY, xs)`: one normal vector per
parameter value, computed row-wise by `normalVecClAt`. -/
noncomputable def normalVecCl (pX pY : ℝ × ℝ × ℝ) (xs : List ℝ) : List (ℝ × ℝ) :=
  xs.map (normalVecClAt pX pY)

theorem linspace_length {K : Type} [Field K] (a b : K) (n : ℕ) :
    (linspace a b n).length = n := by
  unfold linspace
  by_cases h : n ≤ 1
  · rw [if_pos h, List.length_map, List.length_range]
  · rw [if_neg h, List.length_map, List.length_range]

theorem centerline_length {K : Type} [CommRing K] (pX pY : K × K × K)
    (xs : List K) : (centerline pX pY xs).length = xs.length := by
  simp [centerline]

theorem normalVecCl_length (pX pY : ℝ × ℝ × ℝ) (xs : List ℝ) :
    (normalVecCl pX pY xs).length = xs.length := by
  simp [normalVecCl]

/-- C3: the polynomial model used by `fitSkeleton` and all derived operations
has exactly three coefficients and is quadratic, not cubic: the model
evaluates to `c0 + c1*t + c2*t^2`, its `deriv=1` branch evaluates to
`c1 + 2*c2*t`, that branch is the true derivative of the value branch, and
`fitSkeleton` hands exactly this three-coefficient family (with initial guess
`(1,1,1)`) to the optimizer for both axes. -/
theorem pharynxFunc_quadratic_model (c0 c1 c2 t : ℝ) :
    pharynxFunc t (c0, c1, c2) 0 = c0 + c1 * t + c2 * t ^ 2 ∧
    pharynxFunc t (c0, c1, c2) 1 = c1 + 2 * c2 * t ∧
    HasDerivAt (fun s : ℝ => pharynxFunc s (c0, c1, c2) 0)
      (pharynxFunc t (c0, c1, c2) 1) t ∧
    (∀ curveFit ptsX ptsY, fitSkeleton curveFit ptsX ptsY =
      (curveFit (fun s p => pharynxFunc s p 0)
        ((List.range ptsX.length).map (fun i => (i : ℝ))) ptsX (1, 1, 1),
       curveFit (fun s p => pharynxFunc s p 0)
        ((List.range ptsX.length).map (fun i => (i : ℝ))) ptsY (1, 1, 1))) := by
  refine ⟨by simp [pharynxFunc], by simp [pharynxFunc], ?_, fun _ _ _ => rfl⟩
  have h1 : HasDerivAt (fun s : ℝ => c1 * s) c1 t := by
    simpa using (hasDerivAt_id t).const_mul c1
  have h2 : HasDerivAt (fun s : ℝ => s ^ 2) (2 * t) t := by
    simpa using hasDerivAt_pow 2 t
  have h3 := (h1.add (h2.const_mul c2)).const_add c0
  have h4 : HasDerivAt (fun s : ℝ => c0 + (c1 * s + c2 * s ^ 2))
      (c1 + 2 * c2 * t) t := by
    convert h3 using 1
    ring
  have heq : (fun s : ℝ => pharynxFunc s (c0, c1, c2) 0) =
      fun s : ℝ => c0 + (c1 * s + c2 * s ^ 2) := by
    funext s
    simp [pharynxFunc]
    ring
  have hval : pharynxFunc t (c0, c1, c2) 1 = c1 + 2 * c2 * t := by
    simp [pharynxFunc]
  rw [heq, hval]
  exact h4

theorem normalVecCl_getElem (pX pY : ℝ × ℝ × ℝ) (xs : List ℝ) (i : ℕ)
    (hi : i < xs.length) :
    (normalVecCl pX pY xs)[i]! = normalVecClAt pX pY xs[i]! := by
  have h1 : i < (normalVecCl pX pY xs).length := by
    rw [normalVecCl_length]
    exact hi
  rw [getElem!_pos (normalVecCl pX pY xs) i h1, getElem!_pos xs i hi]
  simp [normalVecCl]

/-- C2: for every fitted model pair and every parameter sequence, at each
position whose tangent vector `(dx, dy)` is nonzero the vector returned by
`normalVecCl` has Euclidean norm exactly 1 and is orthogonal to the tangent.
In exact real arithmetic the norm is exactly 1, which is stronger than the
floating tolerance the claim allows. -/
theorem normalVecCl_unit_and_orthogonal (pX pY : ℝ × ℝ × ℝ) (xs : List ℝ)
    (i : ℕ) (hi : i < xs.length)
    (htan : tangentAt pX pY xs[i]! ≠ (0, 0)) :
    Real.sqrt (((normalVecCl pX pY xs)[i]!).1 ^ 2 +
        ((normalVecCl pX pY xs)[i]!).2 ^ 2) = 1 ∧
    ((normalVecCl pX pY xs)[i]!).1 * (tangentAt pX pY xs[i]!).1 +
      ((normalVecCl pX pY xs)[i]!).2 * (tangentAt pX pY xs[i]!).2 = 0 := by
  rw [normalVecCl_getElem pX pY xs i hi]
  set t := xs[i]! with ht
  set dx := pharynxFunc t pX 1 with hdx
  set dy := pharynxFunc t pY 1 with hdy
  have htan' : (dx, dy) ≠ ((0 : ℝ), (0 : ℝ)) := htan
  have hne : dx ≠ 0 ∨ dy ≠ 0 := by
    by_contra hc
    push_neg at hc
    exact htan' (by rw [hc.1, hc.2])
  have hpos : 0 < (-dy) ^ 2 + dx ^ 2 := by
    rcases hne with h | h
    · have h2 : 0 < dx ^ 2 := by positivity
      have h3 : 0 ≤ (-dy) ^ 2 := sq_nonneg _
      linarith
    · have h2 : 0 < (-dy) ^ 2 := by
        have hsq : (-dy) ^ 2 = dy ^ 2 := by ring
        rw [hsq]
        positivity
      have h3 : 0 ≤ dx ^ 2 := sq_nonneg _
      linarith
  have hval : normalVecClAt pX pY t =
      (-dy / Real.sqrt ((-dy) ^ 2 + dx ^ 2),
       dx / Real.sqrt ((-dy) ^ 2 + dx ^ 2)) := by
    simp only [normalVecClAt, ← hdx, ← hdy]
  rw [hval]
  set n := Real.sqrt ((-dy) ^ 2 + dx ^ 2) with hn
  have hnpos : 0 < n := Real.sqrt_pos.mpr hpos
  have hn2 : n ^ 2 = (-dy) ^ 2 + dx ^ 2 := Real.sq_sqrt hpos.le
  have htfst : (tangentAt pX pY t).1 = dx := rfl
  have htsnd : (tangentAt pX pY t).2 = dy := rfl
  constructor
  · have hsum : (-dy / n) ^ 2 + (dx / n) ^ 2 = ((-dy) ^ 2 + dx ^ 2) / n ^ 2 := by
      ring
    rw [hsum, ← hn2, div_self (pow_ne_zero 2 hnpos.ne')]
    exact Real.sqrt_one
  · rw [htfst, htsnd]
    field_simp
    ring

/-- C8 counterexample: with the all-zero model pair the tangent at `t = 0`
is `(0, 0)`, yet `normalVecCl` does not fail: it is a total function (no
error channel exists anywhere in `features.py`) and returns the junk value
obtained by dividing by the zero norm.  In Lean's real arithmetic the
division by zero yields `(0, 0)`; in NumPy it yields `NaN` components
together with a runtime warning — in neither semantics is a typed
`DegenerateNormalError` raised, and no such error class exists in the
source. -/
theorem normalVecCl_degenerate_counterexample :
    normalVecCl ((0 : ℝ), 0, 0) (0, 0, 0) [0] = [(0, 0)] := by
  simp [normalVecCl, normalVecClAt, pharynxFunc]

/-- C8 amended: `normalVecCl` performs no zero-tangent check.  At any
position whose tangent vector is zero it divides the zero orthogonal vector
by the zero norm, so the corresponding entry of the returned array is the
division-by-zero junk value (`(0, 0)` in this exact model, `NaN` components
in NumPy); no typed error is raised. -/
theorem normalVecCl_no_degeneracy_guard (pX pY : ℝ × ℝ × ℝ) (xs : List ℝ)
    (i : ℕ) (hi : i < xs.length)
    (hdeg : tangentAt pX pY xs[i]! = (0, 0)) :
    (normalVecCl pX pY xs)[i]! = (0, 0) := by
  rw [normalVecCl_getElem pX pY xs i hi]
  have hdx : pharynxFunc xs[i]! pX 1 = 0 := congrArg Prod.fst hdeg
  have hdy : pharynxFunc xs[i]! pY 1 = 0 := congrArg Prod.snd hdeg
  simp [normalVecClAt, hdx, hdy]

theorem normalVecCl_unit_witness :
    tangentAt ((0 : ℝ), 1, 0) (0, 0, 0) ([(0 : ℝ)][0]!) ≠ (0, 0) ∧
    (Real.sqrt (((normalVecCl ((0 : ℝ), 1, 0) (0, 0, 0) [0])[0]!).1 ^ 2 +
        ((normalVecCl ((0 : ℝ), 1, 0) (0, 0, 0) [0])[0]!).2 ^ 2) = 1 ∧
      ((normalVecCl ((0 : ℝ), 1, 0) (0, 0, 0) [0])[0]!).1 *
          (tangentAt ((0 : ℝ), 1, 0) (0, 0, 0) ([(0 : ℝ)][0]!)).1 +
        ((normalVecCl ((0 : ℝ), 1, 0) (0, 0, 0) [0])[0]!).2 *
          (tangentAt ((0 : ℝ), 1, 0) (0, 0, 0) ([(0 : ℝ)][0]!)).2 = 0) := by
  have h : tangentAt ((0 : ℝ), 1, 0) (0, 0, 0) ([(0 : ℝ)][0]!) ≠ (0, 0) := by
    norm_num [tangentAt, pharynxFunc]
  exact ⟨h, normalVecCl_unit_and_orthogonal _ _ _ 0 (by simp) h⟩

theorem normalVecCl_no_guard_witness :
    tangentAt ((0 : ℝ), 0, 0) (0, 0, 0) ([(0 : ℝ)][0]!) = (0, 0) ∧
    (normalVecCl ((0 : ℝ), 0, 0) (0, 0, 0) [0])[0]! = (0, 0) := by
  have h : tangentAt ((0 : ℝ), 0, 0) (0, 0, 0) ([(0 : ℝ)][0]!) = (0, 0) := by
    norm_num [tangentAt, pharynxFunc]
  exact ⟨h, normalVecCl_no_degeneracy_guard _ _ _ 0 (by simp) h⟩

/-- Extraction of the skeleton pixel coordinates at the start of
`sortSkeleton`, embedding `ptsX, ptsY = np.where(skeleton)`: the `(row, col)`
positions of all `true` pixels, in row-major order. -/
def skeletonPoints (skel : List (List Bool)) : List (ℕ × ℕ) :=
  (skel.enum.map (fun rc =>
    rc.2.enum.filterMap (fun cb => if cb.2 then some (rc.1, cb.1) else none))).flatten

/-- Model of the external scipy call chain used by `sortSkeleton`:
`leaves_list(linkage(points, method='average', metric='cityblock',
optimal_ordering=True))`.  On fewer than two observations scipy raises an
untyped `ValueError` before any clustering happens; on valid input it
returns the optimal-leaf-order permutation, abstracted here as the
parameter `leafOrder`.  The repository defines no exception classes of its
own, so failures are modelled by the raising library's exception name. -/
def linkageLeavesList (leafOrder : List (ℕ × ℕ) → List ℕ)
    (pts : List (ℕ × ℕ)) : Except String (List ℕ) :=
  if pts.length < 2 then Except.error "ValueError" else Except.ok (leafOrder pts)

/-- Embedding of `sortSkeleton(skeleton)`: extract the skeleton coordinates
with `np.where` and hand them directly to the clustering pipeline.  The
source contains no emptiness check and no error handling of its own. -/
def sortSkeleton (leafOrder : List (ℕ × ℕ) → List ℕ)
    (skel : List (List Bool)) : Except String (List ℕ) :=
  linkageLeavesList leafOrder (skeletonPoints skel)

/-- C7 counterexample: on an all-false skeleton mask `sortSkeleton` does
fail, but the failure is the clustering library's own untyped `ValueError`;
no `EmptySkeletonError` class exists anywhere in `features.py`, so the
claim that it fails with a typed `EmptySkeletonError` is false. -/
theorem sortSkeleton_error_counterexample :
    sortSkeleton (fun _ => []) [[false, false], [false, false]] =
      Except.error "ValueError" ∧
    (Except.error "ValueError" : Except String (List ℕ)) ≠
      Except.error "EmptySkeletonError" := by
  refine ⟨rfl, fun h => ?_⟩
  have h2 : "ValueError" = "EmptySkeletonError" := by
    injection h
  exact absurd h2 (by decide)

/-- C7 amended: `sortSkeleton` has no emptiness guard; on a skeleton mask
with zero true pixels it fails inside the external clustering routine with
that library's untyped `ValueError` (not a typed `EmptySkeletonError`, which
does not exist in the code), and in particular it never returns an
ordering — empty or otherwise — as a successful result. -/
theorem sortSkeleton_empty_fails (leafOrder : List (ℕ × ℕ) → List ℕ)
    (skel : List (List Bool)) (hempty : skeletonPoints skel = []) :
    sortSkeleton leafOrder skel = Except.error "ValueError" ∧
    ∀ l : List ℕ, sortSkeleton leafOrder skel ≠ Except.ok l := by
  have h : sortSkeleton leafOrder skel = Except.error "ValueError" := by
    unfold sortSkeleton linkageLeavesList
    rw [hempty]
    rfl
  refine ⟨h, fun l hl => ?_⟩
  rw [h] at hl
  exact Except.noConfusion hl

theorem sortSkeleton_empty_witness :
    skeletonPoints [[false]] = [] ∧
    sortSkeleton (fun _ => []) [[false]] = Except.error "ValueError" ∧
    sortSkeleton (fun _ => []) [[false]] ≠ Except.ok [] := by
  have hempty : skeletonPoints [[false]] = [] := rfl
  exact ⟨hempty, (sortSkeleton_empty_fails _ _ hempty).1,
    (sortSkeleton_empty_fails _ _ hempty).2 []⟩

/-- Per-segment body of `scalarWidth`: `np.diff` along the middle axis of
one `(start, end)` width segment gives `end - start`, whose squared
components are summed and square-rooted. -/
noncomputable def scalarWidthSeg (seg : (ℝ × ℝ) × (ℝ × ℝ)) : ℝ :=
  Real.sqrt ((seg.2.1 - seg.1.1) ^ 2 + (seg.2.2 - seg.1.2) ^ 2)

/-- Embedding of `scalarWidth(widths)`:
`np.sqrt(np.sum(np.diff(widths, axis=1)**2, axis=-1))`, with the `(N,1)`
result flattened to one scalar per segment. -/
noncomputable def scalarWidth (widths : List ((ℝ × ℝ) × (ℝ × ℝ))) : List ℝ :=
  widths.map scalarWidthSeg

/-- Conversion of a coordinate pair into the Euclidean plane
`EuclideanSpace ℝ (Fin 2)`, used to state that `scalarWidth` computes the
genuine Euclidean distance between the segment endpoints. -/
def toPlane (p : ℝ × ℝ) : EuclideanSpace ℝ (Fin 2) :=
  ![p.1, p.2]

/-- C6: every value returned by `scalarWidth` is non-negative, equals the
Euclidean distance between the two endpoints of its width segment, and the
whole result is unchanged when the start and end points of every segment
are swapped. -/
theorem scalarWidth_nonneg_euclidean_swap (widths : List ((ℝ × ℝ) × (ℝ × ℝ))) :
    (∀ v ∈ scalarWidth widths, 0 ≤ v) ∧
    scalarWidth widths =
      widths.map (fun seg => dist (toPlane seg.1) (toPlane seg.2)) ∧
    scalarWidth (widths.map (fun seg => (seg.2, seg.1))) = scalarWidth widths := by
  have hseg : ∀ seg : (ℝ × ℝ) × (ℝ × ℝ),
      scalarWidthSeg seg = dist (toPlane seg.1) (toPlane seg.2) := by
    intro seg
    rw [EuclideanSpace.dist_eq]
    have h0 : ∀ i : Fin 2, dist (toPlane seg.1 i) (toPlane seg.2 i) ^ 2 =
        (toPlane seg.1 i - toPlane seg.2 i) ^ 2 := fun i => by
      rw [Real.dist_eq, sq_abs]
    rw [Finset.sum_congr rfl (fun i _ => h0 i), Fin.sum_univ_two]
    unfold scalarWidthSeg toPlane
    simp only [Matrix.cons_val_zero, Matrix.cons_val_one, Matrix.head_cons]
    congr 1
    ring
  refine ⟨?_, ?_, ?_⟩
  · intro v hv
    rcases List.mem_map.mp hv with ⟨seg, _, rfl⟩
    exact Real.sqrt_nonneg _
  · exact List.map_congr_left (fun seg _ => hseg seg)
  · simp only [scalarWidth, List.map_map]
    refine List.map_congr_left (fun seg _ => ?_)
    show scalarWidthSeg (seg.2, seg.1) = scalarWidthSeg seg
    unfold scalarWidthSeg
    congr 1
    ring

theorem scalarWidth_witness :
    scalarWidthSeg (((0 : ℝ), 0), (3, 4)) ∈
      scalarWidth [(((0 : ℝ), 0), (3, 4))] ∧
    0 ≤ scalarWidthSeg (((0 : ℝ), 0), (3, 4)) := by
  have hmem : scalarWidthSeg (((0 : ℝ), 0), (3, 4)) ∈
      scalarWidth [(((0 : ℝ), 0), (3, 4))] := by
    simp [scalarWidth]
  exact ⟨hmem,
    (scalarWidth_nonneg_euclidean_swap [(((0 : ℝ), 0), (3, 4))]).1 _ hmem⟩

/-- Embedding of `intensityAlongCenterline(im, cl, **kwargs)`: for each of
the `len(cl) - 1` consecutive point pairs, the external
`skimage.measure.profile_line` (abstracted as the parameter `profileLine`,
whose last argument is the `linewidth`) extracts one intensity profile, and
the per-segment profiles are concatenated with `np.concatenate`.  When the
`width` keyword is present segment `i` uses `width[i]`, otherwise the
`profile_line` default linewidth 1 is used. -/
def intensityAlongCenterline {Img α : Type}
    (profileLine : Img → ℝ × ℝ → ℝ × ℝ → ℕ → List α)
    (im : Img) (cl : List (ℝ × ℝ)) (wOpt : Option (List ℕ)) : List α :=
  match wOpt with
  | some w =>
      ((List.range (cl.length - 1)).map
        (fun i => profileLine im cl[i]! cl[i + 1]! w[i]!)).flatten
  | none =>
      ((List.range (cl.length - 1)).map
        (fun i => profileLine im cl[i]! cl[i + 1]! 1)).flatten

theorem tail_getElem! {α : Type} [Inhabited α] (l : List α) (i : ℕ) :
    l.tail[i]! = l[i + 1]! := by
  cases l
  · simp
  · simp

/-- C9: with a polyline of k ≥ 2 points, `intensityAlongCenterline` returns
exactly the concatenation, in order, of the k−1 per-segment profiles
(segment `i` using `width[i]` when a width sequence is supplied, else
linewidth 1): the result peels off the first segment's profile followed by
the result for the remaining polyline, and its total length is the sum of
the individual per-segment profile lengths, with no deduplication of shared
segment endpoints. -/
theorem intensityAlongCenterline_concat {Img α : Type}
    (profileLine : Img → ℝ × ℝ → ℝ × ℝ → ℕ → List α) (im : Img)
    (cl : List (ℝ × ℝ)) (wOpt : Option (List ℕ)) (h2 : 2 ≤ cl.length) :
    (intensityAlongCenterline profileLine im cl wOpt).length =
      ((List.range (cl.length - 1)).map
        (fun i => (profileLine im cl[i]! cl[i + 1]!
          (match wOpt with | some w => w[i]! | none => 1)).length)).sum ∧
    intensityAlongCenterline profileLine im cl wOpt =
      profileLine im cl[0]! cl[1]!
          (match wOpt with | some w => w[0]! | none => 1) ++
        intensityAlongCenterline profileLine im cl.tail
          (match wOpt with | some w => some w.tail | none => none) := by
  obtain ⟨p, q, rest, rfl⟩ : ∃ p q rest, cl = p :: q :: rest := by
    match cl, h2 with
    | p :: q :: rest, _ => exact ⟨p, q, rest, rfl⟩
  constructor
  · cases wOpt <;>
      simp [intensityAlongCenterline, List.length_flatten, List.map_map] <;>
      rfl
  · have hrange : List.range ((p :: q :: rest).length - 1) =
        0 :: (List.range (rest.length)).map Nat.succ := by
      simp [List.range_succ_eq_map]
    cases wOpt with
    | none =>
        simp only [intensityAlongCenterline, hrange, List.map_cons,
          List.flatten_cons, List.map_map, List.tail_cons]
        congr 1
        have hlen : (q :: rest).length - 1 = rest.length := by simp
        rw [hlen]
        refine congrArg List.flatten (List.map_congr_left (fun i _ => ?_))
        simp [Function.comp_apply, tail_getElem!]
    | some w =>
        simp only [intensityAlongCenterline, hrange, List.map_cons,
          List.flatten_cons, List.map_map, List.tail_cons]
        congr 1
        have hlen : (q :: rest).length - 1 = rest.length := by simp
        rw [hlen]
        refine congrArg List.flatten (List.map_congr_left (fun i _ => ?_))
        simp [Function.comp_apply, tail_getElem!]

theorem intensityAlongCenterline_witness :
    2 ≤ ([((0 : ℝ), 0), (1, 0), (2, 0)] : List (ℝ × ℝ)).length ∧
    (intensityAlongCenterline (fun (_ : Unit) _ _ _ => [(5 : ℚ)]) ()
        [((0 : ℝ), 0), (1, 0), (2, 0)] none).length =
      ((List.range 2).map
        (fun i => ((fun (_ : Unit) _ _ _ => [(5 : ℚ)]) ()
          ([((0 : ℝ), 0), (1, 0), (2, 0)])[i]!
          ([((0 : ℝ), 0), (1, 0), (2, 0)])[i + 1]! 1).length)).sum := by
  refine ⟨by simp, ?_⟩
  exact (intensityAlongCenterline_concat (fun (_ : Unit) _ _ _ => [(5 : ℚ)]) ()
    [((0 : ℝ), 0), (1, 0), (2, 0)] none (by simp)).1

/-- Model of `np.arange(a, b)` with the default step 1: the `⌈b - a⌉`
values `a, a+1, a+2, ...` strictly below `b`. -/
def npArange (a b : ℚ) : List ℚ :=
  (List.range (⌈b - a⌉).toNat).map (fun k : ℕ => a + k)

/-- Walker for the linear interpolation of `np.interp`: `x0, f0` is the
last sample at or below the query; the lists hold the remaining samples.
Past the last sample the query clamps to the last data value. -/
def npInterpGo (x0 f0 : ℚ) : List ℚ → List ℚ → ℚ → ℚ
  | [], _, _ => f0
  | _, [], _ => f0
  | x1 :: xs, f1 :: fs, x =>
    if x ≤ x1 then f0 + (f1 - f0) * (x - x0) / (x1 - x0)
    else npInterpGo x1 f1 xs fs x

/-- Model of one query of `np.interp(x, xp, fp)`: clamp to the first (last)
data value at or outside the sample range and interpolate linearly between
the two bracketing sample points inside it, assuming — as `np.interp`
does without checking — that `xp` is increasing.  `np.interp` raises on an
empty `xp`; the call site in `straightenPharynx` always passes a nonempty
`xp`, and the model returns 0 in that unreachable case. -/
def npInterpAt (xp fp : List ℚ) (x : ℚ) : ℚ :=
  match xp, fp with
  | [], _ => 0
  | _, [] => 0
  | x0 :: xs, f0 :: fs => if x ≤ x0 then f0 else npInterpGo x0 f0 xs fs x

/-- Model of `np.interp(xq, xp, fp)` on a list of query points. -/
def npInterp (xq xp fp : List ℚ) : List ℚ :=
  xq.map (npInterpAt xp fp)

/-- Embedding of `straightenPharynx(im, xstart, xend, poptX, poptY, width,
nPts=100)`: sample `nPts` parameters with `np.linspace`, build the
centerline points and normals there, form the per-sample cross-section
segment from `clF + width*dCl` to `clF - width*dCl`, extract an intensity
profile along each segment with the external
`skimage.measure.profile_line` (abstracted as `profileLine`; the call fixes
`linewidth=1, order=3`), and resample every profile onto
`np.arange(-width, width)` by linear interpolation against
`np.arange(-len(ky)/2, len(ky)/2)`.  `np.array` of the resulting list of
`nPts` profiles stacks them as rows, one row per centerline sample. -/
noncomputable def straightenPharynx {Img : Type}
    (profileLine : Img → ℝ × ℝ → ℝ × ℝ → List ℚ) (im : Img)
    (xstart xend : ℝ) (pX pY : ℝ × ℝ × ℝ) (width : ℕ) (nPts : ℕ) :
    List (List ℚ) :=
  let xn := linspace xstart xend nPts
  let clF := centerline pX pY xn
  let dCl := normalVecCl pX pY xn
  let widths := (clF.zip dCl).map (fun cd =>
    ((cd.1.1 + (width : ℝ) * cd.2.1, cd.1.2 + (width : ℝ) * cd.2.2),
     (cd.1.1 - (width : ℝ) * cd.2.1, cd.1.2 - (width : ℝ) * cd.2.2)))
  let kymo := widths.map (fun pts => profileLine im pts.1 pts.2)
  kymo.map (fun ky =>
    npInterp (npArange (-(width : ℚ)) (width : ℚ))
      (npArange (-((ky.length : ℚ) / 2)) ((ky.length : ℚ) / 2)) ky)

theorem npInterp_length (xq xp fp : List ℚ) :
    (npInterp xq xp fp).length = xq.length := by
  simp [npInterp]

theorem npArange_symm_length (w : ℕ) :
    (npArange (-(w : ℚ)) (w : ℚ)).length = 2 * w := by
  unfold npArange
  rw [List.length_map, List.length_range]
  have h : ((w : ℚ) - (-(w : ℚ))) = ((2 * w : ℕ) : ℚ) := by push_cast; ring
  rw [h, Int.ceil_natCast]
  omega

theorem straightenPharynx_length {Img : Type}
    (profileLine : Img → ℝ × ℝ → ℝ × ℝ → List ℚ) (im : Img)
    (xstart xend : ℝ) (pX pY : ℝ × ℝ × ℝ) (width nPts : ℕ) :
    (straightenPharynx profileLine im xstart xend pX pY width nPts).length =
      nPts := by
  unfold straightenPharynx
  simp [List.length_zip, centerline_length, normalVecCl_length, linspace_length]

/-- C1 counterexample: with halfWidth 1 and nSamples 3 the returned array
has 3 rows, not the 2 · halfWidth = 2 rows the claim requires, so the
claimed shape `(2·halfWidth, nSamples)` is false. -/
theorem straightenPharynx_shape_counterexample :
    ¬ (straightenPharynx (fun (_ : Unit) _ _ => [(0 : ℚ)]) () 0 1
        ((0 : ℝ), 0, 0) (0, 0, 0) 1 3).length = 2 := by
  rw [straightenPharynx_length]
  decide

/-- C1 amended: for every valid input, `straightenPharynx` returns a 2D
array of shape `(nSamples, 2·halfWidth)` — the transpose of the claimed
shape: the `nSamples` rows index position along the centerline and the
`2·halfWidth` columns index the cross-section offset. -/
theorem straightenPharynx_shape {Img : Type}
    (profileLine : Img → ℝ × ℝ → ℝ × ℝ → List ℚ) (im : Img)
    (xstart xend : ℝ) (pX pY : ℝ × ℝ × ℝ) (width nPts : ℕ) :
    (straightenPharynx profileLine im xstart xend pX pY width nPts).length =
      nPts ∧
    ∀ i, i < nPts →
      ((straightenPharynx profileLine im xstart xend pX pY width
        nPts)[i]!).length = 2 * width := by
  refine ⟨straightenPharynx_length profileLine im xstart xend pX pY width nPts,
    fun i hi => ?_⟩
  have hl : i <
      (straightenPharynx profileLine im xstart xend pX pY width nPts).length := by
    rw [straightenPharynx_length]
    exact hi
  rw [getElem!_pos (straightenPharynx profileLine im xstart xend pX pY width
    nPts) i hl]
  unfold straightenPharynx at hl ⊢
  simp only [List.getElem_map]
  rw [npInterp_length, npArange_symm_length]

theorem straightenPharynx_shape_witness :
    (straightenPharynx (fun (_ : Unit) _ _ => [(0 : ℚ)]) () 0 1
        ((0 : ℝ), 0, 0) (0, 0, 0) 1 3).length = 3 ∧
    ((straightenPharynx (fun (_ : Unit) _ _ => [(0 : ℚ)]) () 0 1
        ((0 : ℝ), 0, 0) (0, 0, 0) 1 3)[0]!).length = 2 := by
  exact ⟨(straightenPharynx_shape _ _ _ _ _ _ 1 3).1,
    (straightenPharynx_shape _ _ _ _ _ _ 1 3).2 0 (by decide)⟩

/-- Squared Euclidean distance between two points: one entry of the matrix
`np.sum((tmpcl - contour[:,np.newaxis])**2, axis=-1)` in `cropcenterline`. -/
def sqDist (a b : ℚ × ℚ) : ℚ :=
  (a.1 - b.1) ^ 2 + (a.2 - b.2) ^ 2

/-- Model of `np.min` along the contour axis: minimum of a nonempty list
(`np.min` raises on an empty axis; the model returns 0 there, a case the
claims never reach because the contour is required nonempty). -/
def npMinList (l : List ℚ) : ℚ :=
  match l with
  | [] => 0
  | h :: t => t.foldl min h

/-- One column of `np.min(distClC, axis=0)`: the smallest squared distance
from any contour point to the given sampled centerline point. -/
def minDistToContour (contour : List (ℚ × ℚ)) (c : ℚ × ℚ) : ℚ :=
  npMinList (contour.map (fun p => sqDist p c))

/-- Stable insertion of index `i` into an index list sorted by `key`:
`i` goes before the first index with a strictly larger key, so equal keys
keep their insertion order. -/
def insertByKey (key : ℕ → ℚ) (i : ℕ) : List ℕ → List ℕ
  | [] => [i]
  | j :: rest =>
      if key i < key j then i :: j :: rest else j :: insertByKey key i rest

/-- Model of `np.argsort(l)`: the indices `0..len(l)-1` sorted so that
their values in `l` are ascending.  NumPy's default sort leaves the order
of equal values implementation defined; the model fixes the stable order.
Every property proved below about the argsort output (index distinctness
and range) holds for any tie order, since the output is a permutation of
the index range either way. -/
def argsortQ (l : List ℚ) : List ℕ :=
  (List.range l.length).foldl (fun acc i => insertByKey (fun k => l[k]!) i acc) []

/-- Local variable `xs` of `cropcenterline`:
`np.linspace(-0.25*nP, 1.25*nP, 100)`, the dense samples of the extended
parameter range. -/
def cropXs (nP : ℕ) : List ℚ :=
  linspace (-(1/4 : ℚ) * nP) ((5/4 : ℚ) * nP) 100

/-- Per-sample minima `np.min(distClC, axis=0)` of `cropcenterline`: the
minimum squared distance from each sampled centerline point (`tmpcl`) to
the contour. -/
def cropMinD (pX pY : ℚ × ℚ × ℚ) (contour : List (ℚ × ℚ)) (nP : ℕ) :
    List ℚ :=
  (centerline pX pY (cropXs nP)).map (minDistToContour contour)

/-- Embedding of `cropcenterline(poptX, poptY, contour, nP)`: sample the
centerline model at `np.linspace(-0.25*nP, 1.25*nP, 100)`, take for every
sample the minimum squared distance to the contour, argsort those minima
ascending (`start, end = np.argsort(...)[:2]`), and return the parameter
values at those first two sample indices. -/
def cropcenterline (pX pY : ℚ × ℚ × ℚ) (contour : List (ℚ × ℚ)) (nP : ℕ) :
    ℚ × ℚ :=
  ((cropXs nP)[(argsortQ (cropMinD pX pY contour nP))[0]!]!,
   (cropXs nP)[(argsortQ (cropMinD pX pY contour nP))[1]!]!)

theorem insertByKey_perm (key : ℕ → ℚ) (i : ℕ) (l : List ℕ) :
    List.Perm (insertByKey key i l) (i :: l) := by
  induction l with
  | nil => simp [insertByKey]
  | cons j rest ih =>
    unfold insertByKey
    by_cases h : key i < key j
    · rw [if_pos h]
    · rw [if_neg h]
      exact (ih.cons j).trans (List.Perm.swap i j rest)

theorem foldl_insertByKey_perm (key : ℕ → ℚ) (idxs : List ℕ) :
    ∀ acc : List ℕ,
      List.Perm (idxs.foldl (fun acc i => insertByKey key i acc) acc)
        (acc ++ idxs) := by
  induction idxs with
  | nil => intro acc; simp
  | cons i rest ih =>
    intro acc
    have h1 := ih (insertByKey key i acc)
    have h2 : List.Perm (insertByKey key i acc ++ rest) ((i :: acc) ++ rest) :=
      (insertByKey_perm key i acc).append_right rest
    have h3 : List.Perm ((i :: acc) ++ rest) (acc ++ i :: rest) :=
      List.perm_middle.symm
    exact (h1.trans h2).trans h3

theorem argsortQ_perm (l : List ℚ) :
    List.Perm (argsortQ l) (List.range l.length) := by
  have h := foldl_insertByKey_perm (fun k => l[k]!) (List.range l.length) []
  simpa [argsortQ] using h

theorem getElem!_mem {α : Type} [Inhabited α] (l : List α) (k : ℕ)
    (h : k < l.length) : l[k]! ∈ l := by
  rw [getElem!_pos l k h]
  exact List.getElem_mem h

theorem map_range_getElem! {α : Type} [Inhabited α] (f : ℕ → α) (n i : ℕ)
    (h : i < n) : ((List.range n).map f)[i]! = f i := by
  rw [getElem!_pos _ i (by simpa using h)]
  simp

theorem linspace_inj (a b : ℚ) (n : ℕ) (hab : a < b) (i j : ℕ)
    (hi : i < n) (hj : j < n)
    (heq : (linspace a b n)[i]! = (linspace a b n)[j]!) : i = j := by
  by_cases hn : n ≤ 1
  · omega
  · unfold linspace at heq
    rw [if_neg hn] at heq
    rw [map_range_getElem! _ n i hi, map_range_getElem! _ n j hj] at heq
    have hn1 : ((n : ℚ) - 1) ≠ 0 := by
      have h2 : (2 : ℕ) ≤ n := by omega
      have h2q : (2 : ℚ) ≤ (n : ℚ) := by exact_mod_cast h2
      linarith
    have hba : b - a ≠ 0 := sub_ne_zero.mpr hab.ne'
    have h3 : (b - a) * (i : ℚ) / ((n : ℚ) - 1) =
        (b - a) * (j : ℚ) / ((n : ℚ) - 1) := by linarith
    field_simp at h3
    rcases h3 with h5 | h5
    · exact_mod_cast h5
    · exact absurd h5 hba

theorem linspace_const (a b : ℚ) (n : ℕ) (hab : a = b) (k : ℕ) (hk : k < n) :
    (linspace a b n)[k]! = a := by
  subst hab
  unfold linspace
  by_cases hn : n ≤ 1
  · rw [if_pos hn, map_range_getElem! _ n k hk]
  · rw [if_neg hn, map_range_getElem! _ n k hk]
    simp

theorem cropXs_length (nP : ℕ) : (cropXs nP).length = 100 :=
  linspace_length _ _ _

theorem cropMinD_length (pX pY : ℚ × ℚ × ℚ) (contour : List (ℚ × ℚ))
    (nP : ℕ) : (cropMinD pX pY contour nP).length = 100 := by
  rw [cropMinD, List.length_map, centerline_length, cropXs_length]

theorem argsortQ_first_two (l : List ℚ) (h2 : 2 ≤ l.length) :
    (argsortQ l)[0]! < l.length ∧ (argsortQ l)[1]! < l.length ∧
      (argsortQ l)[0]! ≠ (argsortQ l)[1]! := by
  have hperm := argsortQ_perm l
  have hordlen : (argsortQ l).length = l.length := by
    rw [hperm.length_eq, List.length_range]
  have hnd : (argsortQ l).Nodup := hperm.nodup_iff.mpr (List.nodup_range _)
  have hbound : ∀ k, k < (argsortQ l).length → (argsortQ l)[k]! < l.length := by
    intro k hk
    have hm := getElem!_mem (argsortQ l) k hk
    have hm2 := hperm.mem_iff.mp hm
    exact List.mem_range.mp hm2
  have h0 : (0 : ℕ) < (argsortQ l).length := by omega
  have h1 : (1 : ℕ) < (argsortQ l).length := by omega
  refine ⟨hbound 0 h0, hbound 1 h1, ?_⟩
  rw [getElem!_pos (argsortQ l) 0 h0, getElem!_pos (argsortQ l) 1 h1]
  intro hEq
  have := (List.Nodup.getElem_inj_iff hnd).mp hEq
  omega

theorem cropcenterline_structure (pX pY : ℚ × ℚ × ℚ)
    (contour : List (ℚ × ℚ)) (nP : ℕ) :
    ∃ i j : ℕ, i < 100 ∧ j < 100 ∧ i ≠ j ∧
      cropcenterline pX pY contour nP = ((cropXs nP)[i]!, (cropXs nP)[j]!) := by
  obtain ⟨hb0, hb1, hne⟩ := argsortQ_first_two (cropMinD pX pY contour nP)
    (by rw [cropMinD_length]; omega)
  rw [cropMinD_length] at hb0 hb1
  exact ⟨_, _, hb0, hb1, hne, rfl⟩

/-- C4 counterexample: with skeleton point count `nP = 0` (and any model
pair, here all zeros, against the one-point contour `[(1,1)]`) the 100
samples of `np.linspace(-0.0, 0.0, 100)` all coincide, so the two returned
parameter values are equal, contradicting the claim that two distinct
parameter values are always returned for every skeleton point count. -/
theorem cropcenterline_counterexample :
    (cropcenterline ((0 : ℚ), 0, 0) (0, 0, 0) [(1, 1)] 0).1 =
      (cropcenterline ((0 : ℚ), 0, 0) (0, 0, 0) [(1, 1)] 0).2 := by
  obtain ⟨i, j, hi, hj, hij, hcrop⟩ :=
    cropcenterline_structure ((0 : ℚ), 0, 0) (0, 0, 0) [(1, 1)] 0
  rw [hcrop]
  dsimp only
  unfold cropXs
  rw [linspace_const _ _ 100 (by norm_num) i hi,
    linspace_const _ _ 100 (by norm_num) j hj]

/-- C4 amended: for every model pair, every non-empty contour and every
positive skeleton point count `nP`, `cropcenterline` returns two distinct
parameter values, each drawn from the 100 evenly spaced samples of the
extended range `[-0.25*nP, 1.25*nP]`.  The two values are taken at two
distinct sample indices for `nP = 0` as well, but in that degenerate case
all 100 samples coincide and the returned values are equal. -/
theorem cropcenterline_distinct (pX pY : ℚ × ℚ × ℚ) (contour : List (ℚ × ℚ))
    (nP : ℕ) (hc : contour ≠ []) (hn : 0 < nP) :
    (cropcenterline pX pY contour nP).1 ≠ (cropcenterline pX pY contour nP).2 ∧
    (cropcenterline pX pY contour nP).1 ∈
      linspace (-(1/4 : ℚ) * nP) ((5/4 : ℚ) * nP) 100 ∧
    (cropcenterline pX pY contour nP).2 ∈
      linspace (-(1/4 : ℚ) * nP) ((5/4 : ℚ) * nP) 100 := by
  obtain ⟨i, j, hi, hj, hij, hcrop⟩ := cropcenterline_structure pX pY contour nP
  rw [show cropXs nP = linspace (-(1/4 : ℚ) * nP) ((5/4 : ℚ) * nP) 100 from rfl]
    at hcrop
  have hab : -(1/4 : ℚ) * nP < (5/4 : ℚ) * nP := by
    have hq : (0 : ℚ) < (nP : ℚ) := by exact_mod_cast hn
    nlinarith
  have hxslen : (linspace (-(1/4 : ℚ) * nP) ((5/4 : ℚ) * nP) 100).length = 100 :=
    linspace_length _ _ _
  rw [hcrop]
  refine ⟨?_, ?_, ?_⟩
  · intro hEq
    exact hij (linspace_inj _ _ 100 hab i j hi hj hEq)
  · exact getElem!_mem _ i (by rw [hxslen]; exact hi)
  · exact getElem!_mem _ j (by rw [hxslen]; exact hj)

theorem cropcenterline_distinct_witness :
    ([((1 : ℚ), 1)] : List (ℚ × ℚ)) ≠ [] ∧ (0 : ℕ) < 1 ∧
    (cropcenterline ((0 : ℚ), 0, 0) (0, 0, 0) [(1, 1)] 1).1 ≠
      (cropcenterline ((0 : ℚ), 0, 0) (0, 0, 0) [(1, 1)] 1).2 := by
  have hc : ([((1 : ℚ), 1)] : List (ℚ × ℚ)) ≠ [] := by simp
  exact ⟨hc, Nat.one_pos,
    (cropcenterline_distinct ((0 : ℚ), 0, 0) (0, 0, 0) [(1, 1)] 1 hc
      Nat.one_pos).1⟩

/-- Norm `vCClnorm` of one contour-to-centerline difference vector inside
`widthPharynx`: the Euclidean length of `cl[i] - contour[j]`.  The source
divides by this norm with no zero guard. -/
noncomputable def vCClnorm (c p : ℝ × ℝ) : ℝ :=
  Real.sqrt ((p.1 - c.1) ^ 2 + (p.2 - c.2) ^ 2)

/-- One entry of the `angles` matrix in `widthPharynx`: the dot product of
the normalized vector from contour point `c` to centerline point `p` with
the normal vector `n` at `p`. -/
noncomputable def angleScore (c p n : ℝ × ℝ) : ℝ :=
  ((p.1 - c.1) / vCClnorm c p) * n.1 + ((p.2 - c.2) / vCClnorm c p) * n.2

/-- First extremal index of a list of scores: the index of the first
element such that no element anywhere in the list is `better`.  With
`better = (· < ·)` this is `np.argmin` and with the flipped order it is
`np.argmax`; both NumPy functions are documented to return the first
occurrence of the extremum, which is exactly the behaviour proved in
`argFirst_spec`. -/
def argFirst (better : ℝ → ℝ → Prop) [DecidableRel better] : List ℝ → ℕ
  | [] => 0
  | [_] => 0
  | x :: y :: rest =>
      let r := argFirst better (y :: rest)
      if better ((y :: rest)[r]!) x then r + 1 else 0

theorem argFirst_spec (better : ℝ → ℝ → Prop) [DecidableRel better]
    (hirr : ∀ a, ¬ better a a)
    (hasym : ∀ a b, better a b → ¬ better b a)
    (htrans : ∀ a b c, ¬ better a b → ¬ better b c → ¬ better a c) :
    ∀ l : List ℝ, l ≠ [] →
      argFirst better l < l.length ∧
      (∀ k, k < l.length → ¬ better l[k]! l[argFirst better l]!) ∧
      (∀ k, k < argFirst better l → better l[argFirst better l]! l[k]!) := by
  intro l
  induction l with
  | nil => intro h; exact absurd rfl h
  | cons x tail ih =>
    intro _
    cases tail with
    | nil =>
      refine ⟨by simp [argFirst], ?_, ?_⟩
      · intro k hk
        have hk0 : k = 0 := by
          simp at hk
          omega
        subst hk0
        simpa [argFirst] using hirr x
      · intro k hk
        simp [argFirst] at hk
    | cons y rest =>
      obtain ⟨ihb, ih1, ih2⟩ := ih (by simp)
      have heq : argFirst better (x :: y :: rest) =
          if better ((y :: rest)[argFirst better (y :: rest)]!) x then
            argFirst better (y :: rest) + 1
          else 0 := rfl
      by_cases hb : better ((y :: rest)[argFirst better (y :: rest)]!) x
      · rw [heq, if_pos hb]
        refine ⟨by simpa using Nat.succ_lt_succ ihb, ?_, ?_⟩
        · intro k hk
          cases k with
          | zero =>
            simpa using hasym _ _ hb
          | succ k =>
            have hk2 : k < (y :: rest).length := by
              simpa using Nat.lt_of_succ_lt_succ hk
            simpa using ih1 k hk2
        · intro k hk
          cases k with
          | zero => simpa using hb
          | succ k =>
            have hk2 : k < argFirst better (y :: rest) :=
              Nat.lt_of_succ_lt_succ hk
            simpa using ih2 k hk2
      · rw [heq, if_neg hb]
        refine ⟨by simp, ?_, ?_⟩
        · intro k hk
          cases k with
          | zero => simpa using hirr x
          | succ k =>
            have hk2 : k < (y :: rest).length := by
              simpa using Nat.lt_of_succ_lt_succ hk
            have h1 := ih1 k hk2
            simpa using htrans _ _ _ h1 hb
        · intro k hk
          omega

/-- Embedding of `widthPharynx(cl, contour, dCl)`: for every centerline
index `i` the column `i` of the `angles` matrix holds the angle scores of
all contour points against the normal at `i`; `c1 = np.argmin(angles,
axis=0)` and `c2 = np.argmax(angles, axis=0)` select the first contour
index attaining the minimal score and the first attaining the maximal
score, and the result pairs `contour[c1[i]]` with `contour[c2[i]]`. -/
noncomputable def widthPharynx (cl contour dCl : List (ℝ × ℝ)) :
    List ((ℝ × ℝ) × (ℝ × ℝ)) :=
  (List.range cl.length).map (fun i =>
    (contour[argFirst (· < ·)
        (contour.map (fun c => angleScore c cl[i]! dCl[i]!))]!,
     contour[argFirst (fun a b => b < a)
        (contour.map (fun c => angleScore c cl[i]! dCl[i]!))]!))

/-- C5: for every centerline, contour and normal sequence on which the
angle scores are well defined (no contour point coincides with a
centerline point, the precondition spelled out by C10), column `i` of
`widthPharynx` is the pair of the contour point attaining the minimal
angle score and the contour point attaining the maximal one; in each case
the first index attaining the extremum is chosen — every earlier index has
a strictly worse score — so the selection is deterministic. -/
theorem widthPharynx_extremal (cl contour dCl : List (ℝ × ℝ)) (i : ℕ)
    (hi : i < cl.length) (hM : contour ≠ [])
    (hnc : ∀ j, j < contour.length → ∀ i2, i2 < cl.length →
      contour[j]! ≠ cl[i2]!) :
    ∃ j1 j2 : ℕ, j1 < contour.length ∧ j2 < contour.length ∧
      (widthPharynx cl contour dCl)[i]! = (contour[j1]!, contour[j2]!) ∧
      (∀ k, k < contour.length →
        angleScore contour[j1]! cl[i]! dCl[i]! ≤
          angleScore contour[k]! cl[i]! dCl[i]!) ∧
      (∀ k, k < j1 →
        angleScore contour[j1]! cl[i]! dCl[i]! <
          angleScore contour[k]! cl[i]! dCl[i]!) ∧
      (∀ k, k < contour.length →
        angleScore contour[k]! cl[i]! dCl[i]! ≤
          angleScore contour[j2]! cl[i]! dCl[i]!) ∧
      (∀ k, k < j2 →
        angleScore contour[k]! cl[i]! dCl[i]! <
          angleScore contour[j2]! cl[i]! dCl[i]!) := by
  set scores : List ℝ := contour.map (fun c => angleScore c cl[i]! dCl[i]!)
    with hscores
  have hslen : scores.length = contour.length := by
    rw [hscores, List.length_map]
  have hsne : scores ≠ [] := by
    rw [hscores]
    simpa using hM
  have hsk : ∀ k, k < contour.length →
      scores[k]! = angleScore contour[k]! cl[i]! dCl[i]! := by
    intro k hk
    rw [hscores, getElem!_pos _ k (by simpa using hk), getElem!_pos contour k hk]
    simp
  have hmin := argFirst_spec (· < ·) (fun a => lt_irrefl a)
    (fun a b h => lt_asymm h)
    (fun a b c hab hbc => by
      rw [not_lt] at hab hbc ⊢
      exact le_trans hbc hab) scores hsne
  have hmax := argFirst_spec (fun a b => b < a) (fun a => lt_irrefl a)
    (fun a b h => lt_asymm h)
    (fun a b c hab hbc => by
      rw [not_lt] at hab hbc ⊢
      exact le_trans hab hbc) scores hsne
  obtain ⟨hb1, hmin1, hmin2⟩ := hmin
  obtain ⟨hb2, hmax1, hmax2⟩ := hmax
  rw [hslen] at hb1 hb2
  have hw : (widthPharynx cl contour dCl)[i]! =
      (contour[argFirst (· < ·) scores]!,
       contour[argFirst (fun a b => b < a) scores]!) := by
    rw [hscores]
    unfold widthPharynx
    rw [map_range_getElem! _ cl.length i hi]
  refine ⟨argFirst (· < ·) scores, argFirst (fun a b => b < a) scores,
    hb1, hb2, hw, ?_, ?_, ?_, ?_⟩
  · intro k hk
    have h := hmin1 k (by rw [hslen]; exact hk)
    rw [not_lt] at h
    rwa [hsk k hk, hsk _ hb1] at h
  · intro k hk
    have h := hmin2 k hk
    rwa [hsk _ hb1, hsk k (lt_trans hk hb1)] at h
  · intro k hk
    have h := hmax1 k (by rw [hslen]; exact hk)
    rw [not_lt] at h
    rwa [hsk k hk, hsk _ hb2] at h
  · intro k hk
    have h := hmax2 k hk
    rwa [hsk _ hb2, hsk k (lt_trans hk hb2)] at h

theorem widthPharynx_extremal_witness :
    (0 : ℕ) < ([((0 : ℝ), 0)] : List (ℝ × ℝ)).length ∧
    ([((2 : ℝ), 0)] : List (ℝ × ℝ)) ≠ [] ∧
    (∃ j1 j2 : ℕ, j1 < ([((2 : ℝ), 0)] : List (ℝ × ℝ)).length ∧
      j2 < ([((2 : ℝ), 0)] : List (ℝ × ℝ)).length ∧
      (widthPharynx [((0 : ℝ), 0)] [((2 : ℝ), 0)] [((0 : ℝ), 1)])[0]! =
        (([((2 : ℝ), 0)] : List (ℝ × ℝ))[j1]!,
         ([((2 : ℝ), 0)] : List (ℝ × ℝ))[j2]!) ∧
      (∀ k, k < ([((2 : ℝ), 0)] : List (ℝ × ℝ)).length →
        angleScore ([((2 : ℝ), 0)] : List (ℝ × ℝ))[j1]!
            ([((0 : ℝ), 0)] : List (ℝ × ℝ))[0]!
            ([((0 : ℝ), 1)] : List (ℝ × ℝ))[0]! ≤
          angleScore ([((2 : ℝ), 0)] : List (ℝ × ℝ))[k]!
            ([((0 : ℝ), 0)] : List (ℝ × ℝ))[0]!
            ([((0 : ℝ), 1)] : List (ℝ × ℝ))[0]!) ∧
      (∀ k, k < j1 →
        angleScore ([((2 : ℝ), 0)] : List (ℝ × ℝ))[j1]!
            ([((0 : ℝ), 0)] : List (ℝ × ℝ))[0]!
            ([((0 : ℝ), 1)] : List (ℝ × ℝ))[0]! <
          angleScore ([((2 : ℝ), 0)] : List (ℝ × ℝ))[k]!
            ([((0 : ℝ), 0)] : List (ℝ × ℝ))[0]!
            ([((0 : ℝ), 1)] : List (ℝ × ℝ))[0]!) ∧
      (∀ k, k < ([((2 : ℝ), 0)] : List (ℝ × ℝ)).length →
        angleScore ([((2 : ℝ), 0)] : List (ℝ × ℝ))[k]!
            ([((0 : ℝ), 0)] : List (ℝ × ℝ))[0]!
            ([((0 : ℝ), 1)] : List (ℝ × ℝ))[0]! ≤
          angleScore ([((2 : ℝ), 0)] : List (ℝ × ℝ))[j2]!
            ([((0 : ℝ), 0)] : List (ℝ × ℝ))[0]!
            ([((0 : ℝ), 1)] : List (ℝ × ℝ))[0]!) ∧
      (∀ k, k < j2 →
        angleScore ([((2 : ℝ), 0)] : List (ℝ × ℝ))[k]!
            ([((0 : ℝ), 0)] : List (ℝ × ℝ))[0]!
            ([((0 : ℝ), 1)] : List (ℝ × ℝ))[0]! <
          angleScore ([((2 : ℝ), 0)] : List (ℝ × ℝ))[j2]!
            ([((0 : ℝ), 0)] : List (ℝ × ℝ))[0]!
            ([((0 : ℝ), 1)] : List (ℝ × ℝ))[0]!)) := by
  have hnc : ∀ j, j < ([((2 : ℝ), 0)] : List (ℝ × ℝ)).length →
      ∀ i2, i2 < ([((0 : ℝ), 0)] : List (ℝ × ℝ)).length →
        ([((2 : ℝ), 0)] : List (ℝ × ℝ))[j]! ≠
          ([((0 : ℝ), 0)] : List (ℝ × ℝ))[i2]! := by
    intro j hj i2 hi2
    have hj0 : j = 0 := by simpa using hj
    have hi20 : i2 = 0 := by simpa using hi2
    subst hj0
    subst hi20
    norm_num [Prod.ext_iff]
  exact ⟨by simp, by simp,
    widthPharynx_extremal [((0 : ℝ), 0)] [((2 : ℝ), 0)] [((0 : ℝ), 1)] 0
      (by simp) (by simp) hnc⟩

/-- C10: `widthPharynx` normalizes every contour-to-centerline difference
vector by its own norm with no zero guard.  When contour point `j`
coincides with centerline point `i`, the divisor `vCClnorm` is exactly 0,
so the division is a division by zero: the angle score entry degenerates
to the junk value (0 in this exact model, since both numerator components
are also 0; `NaN` from `0/0` in NumPy), and the extremum selection for
that column operates on such junk scores, i.e. is unspecified in float
semantics. -/
theorem widthPharynx_zero_norm_no_guard (cl contour dCl : List (ℝ × ℝ))
    (i j : ℕ) (hi : i < cl.length) (hj : j < contour.length)
    (heq : contour[j]! = cl[i]!) :
    vCClnorm contour[j]! cl[i]! = 0 ∧
    (contour.map (fun c => angleScore c cl[i]! dCl[i]!))[j]! = 0 := by
  have h1 : vCClnorm contour[j]! cl[i]! = 0 := by
    rw [heq]
    simp [vCClnorm]
  refine ⟨h1, ?_⟩
  rw [getElem!_pos _ j (by simpa using hj)]
  simp only [List.getElem_map]
  rw [getElem!_pos contour j hj] at heq
  rw [heq]
  simp [angleScore]

theorem widthPharynx_zero_norm_witness :
    ([((1 : ℝ), 2)] : List (ℝ × ℝ))[0]! = ([((1 : ℝ), 2)] : List (ℝ × ℝ))[0]! ∧
    vCClnorm ([((1 : ℝ), 2)] : List (ℝ × ℝ))[0]!
      ([((1 : ℝ), 2)] : List (ℝ × ℝ))[0]! = 0 ∧
    (([((1 : ℝ), 2)] : List (ℝ × ℝ)).map
      (fun c => angleScore c ([((1 : ℝ), 2)] : List (ℝ × ℝ))[0]!
        ([((0 : ℝ), 1)] : List (ℝ × ℝ))[0]!))[0]! = 0 := by
  have h := widthPharynx_zero_norm_no_guard [((1 : ℝ), 2)] [((1 : ℝ), 2)]
    [((0 : ℝ), 1)] 0 0 (by simp) (by simp) rfl
  exact ⟨rfl, h.1, h.2⟩

end PharaGlow
